import Mathlib

/-!
Shallow embedding of the `xgx_intern` crate: the generic deduplicating
interner (`src/lib.rs`), its `FromRef` construction abstraction
(`src/from_ref.rs`), and the bit-pattern float wrappers (`src/float.rs`).

The Rust `Interner<T, S, H>` stores an `IndexSet<T, S>` (an insertion-ordered
set).  We model it as a list of items together with `hcap`, the number of
values representable by the handle type `H` (for `H = u8`, `hcap = 256`):
`H::try_from(idx)` succeeds exactly when `idx < hcap`.  Handles themselves
are modelled as `Nat`; `usize::try_from(handle)` always succeeds on the
host for the unsigned handle widths involved, so handle-to-index conversion
is the identity.  The hash strategy `S` only affects bucket placement inside
`IndexSet`, never its observable (insertion-ordered) behaviour, so it has no
counterpart in the model.  Mutating methods take `&mut self` and return a
value; the model returns the pair of that value and the post-call store.
-/

namespace XgxIntern

/-- Rust `InternerError` from `src/lib.rs`: the single error variant. -/
inductive InternerError : Type where
  | Overflow : InternerError
deriving DecidableEq

/-- Model of the interner state: `items` is the `IndexSet` contents in
insertion order, `hcap` the number of representable values of the handle
type `H`. -/
structure Interner (T : Type) : Type where
  hcap : Nat
  items : List T
deriving DecidableEq

/-- Rust `IndexSet::get_index_of` generalized over `Borrow`: the index of
the first (for a set, the only) element whose borrowed form equals `key`. -/
def get_index_of {T Q : Type} [DecidableEq Q] (borrow : T → Q) (key : Q) :
    List T → Option Nat
  | [] => none
  | t :: ts =>
    if borrow t = key then some 0
    else (get_index_of borrow key ts).map (· + 1)

/-- Rust `Interner::idx_to_handle`: `H::try_from(idx)`, the single choke
point for handle-space exhaustion. -/
def idx_to_handle (hcap idx : Nat) : Except InternerError Nat :=
  if idx < hcap then .ok idx else .error .Overflow

/-- Rust `Interner::intern_owned`: look the item up first; on a miss, check
the handle conversion for overflow before inserting. -/
def intern_owned {T : Type} [DecidableEq T] (s : Interner T) (item : T) :
    Except InternerError Nat × Interner T :=
  match get_index_of id item s.items with
  | some idx => (idx_to_handle s.hcap idx, s)
  | none =>
    match idx_to_handle s.hcap s.items.length with
    | .ok h => (.ok h, { s with items := s.items ++ [item] })
    | .error e => (.error e, s)

/-- Rust `Interner::intern_ref`: `borrow` models the `Borrow<Q>` view of
`T`, `from_ref` the `FromRef<Q>` construction used on a miss. -/
def intern_ref {T Q : Type} [DecidableEq Q] (s : Interner T)
    (borrow : T → Q) (from_ref : Q → T) (item : Q) :
    Except InternerError Nat × Interner T :=
  match get_index_of borrow item s.items with
  | some idx => (idx_to_handle s.hcap idx, s)
  | none =>
    match idx_to_handle s.hcap s.items.length with
    | .ok h => (.ok h, { s with items := s.items ++ [from_ref item] })
    | .error e => (.error e, s)

/-- Model of `alloc::borrow::Cow`. -/
inductive Cow (Q T : Type) : Type where
  | borrowed : Q → Cow Q T
  | owned : T → Cow Q T

/-- Rust `Cow::as_ref`, with `borrow` as the `Borrow<Q>` view of the owned
form. -/
def Cow.as_ref {Q T : Type} (borrow : T → Q) : Cow Q T → Q
  | .borrowed q => q
  | .owned t => borrow t

/-- Rust `Cow::into_owned`, with `to_owned` as `Q::to_owned`. -/
def Cow.into_owned {Q T : Type} (to_owned : Q → T) : Cow Q T → T
  | .borrowed q => to_owned q
  | .owned t => t

/-- Rust `Interner::intern_cow`. -/
def intern_cow {T Q : Type} [DecidableEq Q] (s : Interner T)
    (borrow : T → Q) (to_owned : Q → T) (item : Cow Q T) :
    Except InternerError Nat × Interner T :=
  match get_index_of borrow (item.as_ref borrow) s.items with
  | some idx => (idx_to_handle s.hcap idx, s)
  | none =>
    match idx_to_handle s.hcap s.items.length with
    | .ok h => (.ok h, { s with items := s.items ++ [item.into_owned to_owned] })
    | .error e => (.error e, s)

/-- Rust `Interner::intern_ref_or_insert_with`: `make` is the
`FnOnce() -> T` closure, run only in the miss branch. -/
def intern_ref_or_insert_with {T Q : Type} [DecidableEq Q] (s : Interner T)
    (borrow : T → Q) (key : Q) (make : Unit → T) :
    Except InternerError Nat × Interner T :=
  match get_index_of borrow key s.items with
  | some idx => (idx_to_handle s.hcap idx, s)
  | none =>
    match idx_to_handle s.hcap s.items.length with
    | .ok h => (.ok h, { s with items := s.items ++ [make ()] })
    | .error e => (.error e, s)

/-- Instrumented copy of `intern_ref`: identical control flow, additionally
reporting how many times `from_ref` was invoked on that path. -/
def intern_ref_count {T Q : Type} [DecidableEq Q] (s : Interner T)
    (borrow : T → Q) (from_ref : Q → T) (item : Q) :
    (Except InternerError Nat × Interner T) × Nat :=
  match get_index_of borrow item s.items with
  | some idx => ((idx_to_handle s.hcap idx, s), 0)
  | none =>
    match idx_to_handle s.hcap s.items.length with
    | .ok h => ((.ok h, { s with items := s.items ++ [from_ref item] }), 1)
    | .error e => ((.error e, s), 0)

/-- Instrumented copy of `intern_ref_or_insert_with`: identical control
flow, additionally reporting how many times `make` was invoked. -/
def intern_ref_or_insert_with_count {T Q : Type} [DecidableEq Q]
    (s : Interner T) (borrow : T → Q) (key : Q) (make : Unit → T) :
    (Except InternerError Nat × Interner T) × Nat :=
  match get_index_of borrow key s.items with
  | some idx => ((idx_to_handle s.hcap idx, s), 0)
  | none =>
    match idx_to_handle s.hcap s.items.length with
    | .ok h => ((.ok h, { s with items := s.items ++ [make ()] }), 1)
    | .error e => ((.error e, s), 0)

/-- Rust `Interner::lookup_handle`. -/
def lookup_handle {T Q : Type} [DecidableEq Q] (s : Interner T)
    (borrow : T → Q) (item : Q) : Except InternerError (Option Nat) :=
  match get_index_of borrow item s.items with
  | none => .ok none
  | some idx => (idx_to_handle s.hcap idx).map some

/-- Rust `Interner::contains` (`IndexSet::contains`). -/
def contains {T Q : Type} [DecidableEq Q] (s : Interner T)
    (borrow : T → Q) (item : Q) : Bool :=
  s.items.any (fun t => borrow t = item)

/-- Rust `Interner::remove`: `shift_remove_full` deletes the slot and shifts
the tail left; the removed index is then converted back to `H`, and a
failing conversion yields `None` with the deletion already performed. -/
def remove {T Q : Type} [DecidableEq Q] (s : Interner T)
    (borrow : T → Q) (item : Q) : Option (Nat × T) × Interner T :=
  match get_index_of borrow item s.items with
  | none => (none, s)
  | some idx =>
    match s.items[idx]? with
    | none => (none, s)
    | some val =>
      let s' : Interner T := { s with items := s.items.eraseIdx idx }
      if idx < s.hcap then (some (idx, val), s') else (none, s')

/-- Rust `Interner::remove_handle`: `shift_remove_index` at the handle's
index. -/
def remove_handle {T : Type} (s : Interner T) (handle : Nat) :
    Option T × Interner T :=
  match s.items[handle]? with
  | none => (none, s)
  | some val => (some val, { s with items := s.items.eraseIdx handle })

/-- Rust `Interner::repair_handles`: decrement every held handle strictly
greater than `removed`; the decrement goes through `H::try_from(idx - 1)`,
which succeeds exactly when the result is representable. -/
def repair_handles {T : Type} (s : Interner T) (removed : Nat)
    (handles : List Nat) : List Nat :=
  handles.map fun h =>
    if removed < h then
      if h - 1 < s.hcap then h - 1 else h
    else h

/-- Rust `Interner::clear`. -/
def clear {T : Type} (s : Interner T) : Interner T :=
  { s with items := [] }

/-- Rust `Interner::resolve`: handle back to the stored value, `None` when
out of bounds (`IndexSet::get_index`). -/
def resolve {T : Type} (s : Interner T) (handle : Nat) : Option T :=
  s.items[handle]?

/-- Rust `Interner::len`. -/
def len {T : Type} (s : Interner T) : Nat :=
  s.items.length

/-- Rust `Interner::is_empty`. -/
def is_empty {T : Type} (s : Interner T) : Bool :=
  s.items.isEmpty

/-- Rust `Interner::export`: consumes the store, returning the items in
insertion order (named `exportItems` because `export` is a Lean keyword). -/
def exportItems {T : Type} (s : Interner T) : List T :=
  s.items

/-- Rust `Interner::export_arena` for string-like `T` (`as_ref` models
`AsRef<str>`, strings as character lists): one concatenated arena plus the
offsets table, built exactly as the source loop does: `offsets` starts at
`[0]`, and after each `push_str` the new arena length is pushed. -/
def export_arena {T : Type} (s : Interner T) (as_ref : T → List Char) :
    List Char × List Nat :=
  s.items.foldl
    (fun acc item =>
      let arena := acc.1 ++ as_ref item
      (arena, acc.2 ++ [arena.length]))
    ([], [0])

/-- Sequencing helper used to state the spec's bulk examples: intern a list
of values left to right with `intern_owned`, collecting each result. -/
def internAll {T : Type} [DecidableEq T] (s : Interner T) (xs : List T) :
    List (Except InternerError Nat) × Interner T :=
  xs.foldl
    (fun acc x =>
      let r := intern_owned acc.2 x
      (acc.1 ++ [r.1], r.2))
    ([], s)

/-- Stores reachable from a store by any sequence of intern calls (no
removal, no clear): the relation the spec's order law quantifies over. -/
inductive InternOnly {T : Type} [DecidableEq T] :
    Interner T → Interner T → Prop where
  | refl (s : Interner T) : InternOnly s s
  | owned_step (s s' : Interner T) (item : T) :
      InternOnly s s' → InternOnly s (intern_owned s' item).2
  | ref_step {Q : Type} [DecidableEq Q] (s s' : Interner T)
      (borrow : T → Q) (from_ref : Q → T) (item : Q) :
      InternOnly s s' → InternOnly s (intern_ref s' borrow from_ref item).2
  | cow_step {Q : Type} [DecidableEq Q] (s s' : Interner T)
      (borrow : T → Q) (to_owned : Q → T) (item : Cow Q T) :
      InternOnly s s' → InternOnly s (intern_cow s' borrow to_owned item).2
  | insert_with_step {Q : Type} [DecidableEq Q] (s s' : Interner T)
      (borrow : T → Q) (key : Q) (make : Unit → T) :
      InternOnly s s' → InternOnly s (intern_ref_or_insert_with s' borrow key make).2

/-- Stores reachable from an empty store (`new` / `with_capacity`) through
the public mutating operations. -/
inductive Reachable {T : Type} [DecidableEq T] : Interner T → Prop where
  | new (hcap : Nat) : Reachable ⟨hcap, []⟩
  | owned_step (s : Interner T) (item : T) :
      Reachable s → Reachable (intern_owned s item).2
  | ref_step {Q : Type} [DecidableEq Q] (s : Interner T)
      (borrow : T → Q) (from_ref : Q → T) (item : Q) :
      Reachable s → Reachable (intern_ref s borrow from_ref item).2
  | cow_step {Q : Type} [DecidableEq Q] (s : Interner T)
      (borrow : T → Q) (to_owned : Q → T) (item : Cow Q T) :
      Reachable s → Reachable (intern_cow s borrow to_owned item).2
  | insert_with_step {Q : Type} [DecidableEq Q] (s : Interner T)
      (borrow : T → Q) (key : Q) (make : Unit → T) :
      Reachable s → Reachable (intern_ref_or_insert_with s borrow key make).2
  | remove_step {Q : Type} [DecidableEq Q] (s : Interner T)
      (borrow : T → Q) (key : Q) :
      Reachable s → Reachable (remove s borrow key).2
  | remove_handle_step (s : Interner T) (h : Nat) :
      Reachable s → Reachable (remove_handle s h).2
  | clear_step (s : Interner T) :
      Reachable s → Reachable (clear s)

/-- Offsets produced by the `export_arena` loop for the remaining items,
starting from an arena that already holds `base` characters. -/
def arena_offsets {T : Type} (f : T → List Char) (base : Nat) :
    List T → List Nat
  | [] => []
  | t :: ts => (base + (f t).length) :: arena_offsets f (base + (f t).length) ts

/-- Total character count of a list of values under `f`: the prefix-sum
quantity the offsets table tabulates. -/
def sum_len {T : Type} (f : T → List Char) : List T → Nat
  | [] => 0
  | t :: ts => (f t).length + sum_len f ts

/-- Model of `f64`: IEEE-754 binary64 values identified with their 64-bit
pattern (`f64::to_bits`); only the bit pattern is ever inspected by the
wrapper under verification. -/
structure f64 : Type where
  bits : Nat
deriving DecidableEq

/-- Rust `f64::to_bits`. -/
def f64.to_bits (x : f64) : Nat := x.bits

/-- IEEE-754 binary64 NaN: exponent field (bits 52..62) all ones, nonzero
mantissa (bits 0..51). -/
def f64.isNaN (x : f64) : Prop :=
  (x.bits / 2 ^ 52) % 2 ^ 11 = 2 ^ 11 - 1 ∧ x.bits % 2 ^ 52 ≠ 0

instance (x : f64) : Decidable x.isNaN := by
  unfold f64.isNaN
  infer_instance

/-- IEEE-754 binary64 `+0.0`: all bits zero. -/
def posZero64 : f64 := ⟨0⟩

/-- IEEE-754 binary64 `-0.0`: sign bit only. -/
def negZero64 : f64 := ⟨2 ^ 63⟩

/-- Rust `HashableF64` from `src/float.rs`. -/
structure HashableF64 : Type where
  val : f64
deriving DecidableEq

/-- Rust `PartialEq for HashableF64`: bit-pattern comparison. -/
def HashableF64.beq (a b : HashableF64) : Bool :=
  a.val.to_bits == b.val.to_bits

/-- Rust `Hash for HashableF64` feeds exactly `self.0.to_bits()` to the
hasher; this is that hash input. -/
def HashableF64.hashInput (a : HashableF64) : Nat :=
  a.val.to_bits

/-- Model of `f32`: IEEE-754 binary32 values identified with their 32-bit
pattern (`f32::to_bits`). -/
structure f32 : Type where
  bits : Nat
deriving DecidableEq

/-- Rust `f32::to_bits`. -/
def f32.to_bits (x : f32) : Nat := x.bits

/-- IEEE-754 binary32 NaN: exponent field (bits 23..30) all ones, nonzero
mantissa (bits 0..22). -/
def f32.isNaN (x : f32) : Prop :=
  (x.bits / 2 ^ 23) % 2 ^ 8 = 2 ^ 8 - 1 ∧ x.bits % 2 ^ 23 ≠ 0

instance (x : f32) : Decidable x.isNaN := by
  unfold f32.isNaN
  infer_instance

/-- IEEE-754 binary32 `+0.0`: all bits zero. -/
def posZero32 : f32 := ⟨0⟩

/-- IEEE-754 binary32 `-0.0`: sign bit only. -/
def negZero32 : f32 := ⟨2 ^ 31⟩

/-- Rust `HashableF32` from `src/float.rs`. -/
structure HashableF32 : Type where
  val : f32
deriving DecidableEq

/-- Rust `PartialEq for HashableF32`: bit-pattern comparison. -/
def HashableF32.beq (a b : HashableF32) : Bool :=
  a.val.to_bits == b.val.to_bits

/-- Rust `Hash for HashableF32` feeds exactly `self.0.to_bits()` to the
hasher; this is that hash input. -/
def HashableF32.hashInput (a : HashableF32) : Nat :=
  a.val.to_bits

end XgxIntern

deriving instance DecidableEq for Except

namespace XgxIntern

theorem get_index_of_eq_none_iff {T Q : Type} [DecidableEq Q]
    (borrow : T → Q) (key : Q) (l : List T) :
    get_index_of borrow key l = none ↔ ∀ t ∈ l, borrow t ≠ key := by
  induction l with
  | nil => simp [get_index_of]
  | cons t ts ih =>
    by_cases h : borrow t = key
    · simp [get_index_of, h]
    · simp [get_index_of, h, ih]

theorem get_index_of_eq_some {T Q : Type} [DecidableEq Q]
    {borrow : T → Q} {key : Q} {l : List T} {idx : Nat}
    (h : get_index_of borrow key l = some idx) :
    ∃ t, l[idx]? = some t ∧ borrow t = key := by
  induction l generalizing idx with
  | nil => simp [get_index_of] at h
  | cons t ts ih =>
    by_cases hb : borrow t = key
    · simp [get_index_of, hb] at h
      subst h
      exact ⟨t, by simp, hb⟩
    · simp [get_index_of, hb] at h
      obtain ⟨j, hj, rfl⟩ := h
      obtain ⟨u, hu, hbu⟩ := ih hj
      exact ⟨u, by simpa using hu, hbu⟩

theorem get_index_of_lt_length {T Q : Type} [DecidableEq Q]
    {borrow : T → Q} {key : Q} {l : List T} {idx : Nat}
    (h : get_index_of borrow key l = some idx) : idx < l.length := by
  obtain ⟨t, ht, -⟩ := get_index_of_eq_some h
  by_contra hlt
  rw [List.getElem?_eq_none (Nat.le_of_not_lt hlt)] at ht
  exact Option.noConfusion ht

theorem get_index_of_append_singleton {T Q : Type} [DecidableEq Q]
    {borrow : T → Q} {key : Q} {l : List T} {t : T}
    (hnone : get_index_of borrow key l = none) (ht : borrow t = key) :
    get_index_of borrow key (l ++ [t]) = some l.length := by
  induction l with
  | nil => simp [get_index_of, ht]
  | cons u us ih =>
    by_cases hu : borrow u = key
    · simp [get_index_of, hu] at hnone
    · have hnone' : get_index_of borrow key us = none := by
        simpa [get_index_of, hu] using hnone
      simp [get_index_of, hu, ih hnone']

theorem get_index_of_id_eq_none_iff {T : Type} [DecidableEq T]
    (item : T) (l : List T) :
    get_index_of id item l = none ↔ item ∉ l := by
  rw [get_index_of_eq_none_iff]
  constructor
  · intro h hmem
    exact h item hmem rfl
  · intro h t hmem heq
    have heq' : t = item := heq
    subst heq'
    exact h hmem

theorem get_index_of_id_eq_some {T : Type} [DecidableEq T]
    {item : T} {l : List T} {idx : Nat}
    (h : get_index_of id item l = some idx) : l[idx]? = some item := by
  obtain ⟨t, ht, hb⟩ := get_index_of_eq_some h
  have hb' : t = item := hb
  subst hb'
  exact ht

theorem intern_owned_hit {T : Type} [DecidableEq T]
    {s : Interner T} {item : T} {idx : Nat}
    (hidx : get_index_of id item s.items = some idx) :
    intern_owned s item = (idx_to_handle s.hcap idx, s) := by
  unfold intern_owned
  rw [hidx]

theorem intern_ref_hit {T Q : Type} [DecidableEq Q]
    {s : Interner T} {borrow : T → Q} {from_ref : Q → T} {key : Q} {idx : Nat}
    (hidx : get_index_of borrow key s.items = some idx) :
    intern_ref s borrow from_ref key = (idx_to_handle s.hcap idx, s) := by
  unfold intern_ref
  rw [hidx]

theorem intern_cow_hit {T Q : Type} [DecidableEq Q]
    {s : Interner T} {borrow : T → Q} {to_owned : Q → T} {item : Cow Q T} {idx : Nat}
    (hidx : get_index_of borrow (item.as_ref borrow) s.items = some idx) :
    intern_cow s borrow to_owned item = (idx_to_handle s.hcap idx, s) := by
  unfold intern_cow
  rw [hidx]

theorem intern_ref_or_insert_with_hit {T Q : Type} [DecidableEq Q]
    {s : Interner T} {borrow : T → Q} {key : Q} {make : Unit → T} {idx : Nat}
    (hidx : get_index_of borrow key s.items = some idx) :
    intern_ref_or_insert_with s borrow key make = (idx_to_handle s.hcap idx, s) := by
  unfold intern_ref_or_insert_with
  rw [hidx]

theorem idx_to_handle_ok {hcap idx : Nat} (h : idx < hcap) :
    idx_to_handle hcap idx = .ok idx := by
  simp [idx_to_handle, h]

theorem idx_to_handle_error {hcap idx : Nat} (h : hcap ≤ idx) :
    idx_to_handle hcap idx = .error .Overflow := by
  simp [idx_to_handle, Nat.not_lt_of_le h]

theorem intern_owned_snd_cases {T : Type} [DecidableEq T]
    (s : Interner T) (item : T) :
    (intern_owned s item).2 = s
    ∨ (s.items.length < s.hcap
        ∧ (intern_owned s item).2 = { s with items := s.items ++ [item] }) := by
  cases hidx : get_index_of id item s.items with
  | some idx =>
    exact Or.inl (by unfold intern_owned; rw [hidx])
  | none =>
    by_cases hlt : s.items.length < s.hcap
    · exact Or.inr ⟨hlt, by unfold intern_owned; rw [hidx, idx_to_handle_ok hlt]⟩
    · exact Or.inl
        (by unfold intern_owned; rw [hidx, idx_to_handle_error (Nat.le_of_not_lt hlt)])

theorem intern_ref_snd_cases {T Q : Type} [DecidableEq Q]
    (s : Interner T) (borrow : T → Q) (from_ref : Q → T) (item : Q) :
    (intern_ref s borrow from_ref item).2 = s
    ∨ (s.items.length < s.hcap
        ∧ (intern_ref s borrow from_ref item).2
          = { s with items := s.items ++ [from_ref item] }) := by
  cases hidx : get_index_of borrow item s.items with
  | some idx =>
    exact Or.inl (by unfold intern_ref; rw [hidx])
  | none =>
    by_cases hlt : s.items.length < s.hcap
    · exact Or.inr ⟨hlt, by unfold intern_ref; rw [hidx, idx_to_handle_ok hlt]⟩
    · exact Or.inl
        (by unfold intern_ref; rw [hidx, idx_to_handle_error (Nat.le_of_not_lt hlt)])

theorem intern_cow_snd_cases {T Q : Type} [DecidableEq Q]
    (s : Interner T) (borrow : T → Q) (to_owned : Q → T) (item : Cow Q T) :
    (intern_cow s borrow to_owned item).2 = s
    ∨ (s.items.length < s.hcap
        ∧ (intern_cow s borrow to_owned item).2
          = { s with items := s.items ++ [item.into_owned to_owned] }) := by
  cases hidx : get_index_of borrow (item.as_ref borrow) s.items with
  | some idx =>
    exact Or.inl (by unfold intern_cow; rw [hidx])
  | none =>
    by_cases hlt : s.items.length < s.hcap
    · exact Or.inr ⟨hlt, by unfold intern_cow; rw [hidx, idx_to_handle_ok hlt]⟩
    · exact Or.inl
        (by unfold intern_cow; rw [hidx, idx_to_handle_error (Nat.le_of_not_lt hlt)])

theorem intern_ref_or_insert_with_snd_cases {T Q : Type} [DecidableEq Q]
    (s : Interner T) (borrow : T → Q) (key : Q) (make : Unit → T) :
    (intern_ref_or_insert_with s borrow key make).2 = s
    ∨ (s.items.length < s.hcap
        ∧ (intern_ref_or_insert_with s borrow key make).2
          = { s with items := s.items ++ [make ()] }) := by
  cases hidx : get_index_of borrow key s.items with
  | some idx =>
    exact Or.inl (by unfold intern_ref_or_insert_with; rw [hidx])
  | none =>
    by_cases hlt : s.items.length < s.hcap
    · exact Or.inr ⟨hlt, by unfold intern_ref_or_insert_with; rw [hidx, idx_to_handle_ok hlt]⟩
    · exact Or.inl
        (by unfold intern_ref_or_insert_with; rw [hidx, idx_to_handle_error (Nat.le_of_not_lt hlt)])

theorem intern_owned_ok_spec {T : Type} [DecidableEq T]
    {s : Interner T} {item : T} {h : Nat}
    (hok : (intern_owned s item).1 = .ok h) :
    get_index_of id item (intern_owned s item).2.items = some h
    ∧ h < (intern_owned s item).2.hcap := by
  cases hidx : get_index_of id item s.items with
  | some idx =>
    rw [intern_owned_hit hidx] at hok ⊢
    by_cases hlt : idx < s.hcap
    · rw [idx_to_handle_ok hlt] at hok
      injection hok with hh
      subst hh
      exact ⟨hidx, hlt⟩
    · rw [idx_to_handle_error (Nat.le_of_not_lt hlt)] at hok
      exact absurd hok (by simp)
  | none =>
    by_cases hlt : s.items.length < s.hcap
    · have heq : intern_owned s item
          = (.ok s.items.length, { s with items := s.items ++ [item] }) := by
        unfold intern_owned
        rw [hidx, idx_to_handle_ok hlt]
      rw [heq] at hok ⊢
      injection hok with hh
      subst hh
      exact ⟨get_index_of_append_singleton hidx rfl, hlt⟩
    · have heq : intern_owned s item = (.error .Overflow, s) := by
        unfold intern_owned
        rw [hidx, idx_to_handle_error (Nat.le_of_not_lt hlt)]
      rw [heq] at hok
      exact absurd hok (by simp)

theorem intern_owned_ok_getElem {T : Type} [DecidableEq T]
    {s : Interner T} {item : T} {h : Nat}
    (hok : (intern_owned s item).1 = .ok h) :
    (intern_owned s item).2.items[h]? = some item :=
  get_index_of_id_eq_some (intern_owned_ok_spec hok).1

end XgxIntern

namespace XgxIntern

/-- C10: for the wrapped floats, equality holds iff the raw bit patterns
agree (`to_bits`); hence wrapping `+0.0` and `-0.0` gives unequal values,
any NaN equals a wrapper holding the identical bit pattern, differently
encoded NaNs are unequal, and equal wrappers produce identical hash input
(the hash is computed over the raw bit pattern). -/
theorem hashable_float_bit_equality :
    (∀ a b : HashableF64,
        HashableF64.beq a b = true ↔ a.val.to_bits = b.val.to_bits)
    ∧ HashableF64.beq ⟨posZero64⟩ ⟨negZero64⟩ = false
    ∧ (∀ x y : f64, x.isNaN → x.bits = y.bits →
        HashableF64.beq ⟨x⟩ ⟨y⟩ = true)
    ∧ (∀ x y : f64, x.isNaN → y.isNaN → x.bits ≠ y.bits →
        HashableF64.beq ⟨x⟩ ⟨y⟩ = false)
    ∧ (∀ a b : HashableF64, HashableF64.beq a b = true →
        HashableF64.hashInput a = HashableF64.hashInput b)
    ∧ (∀ a b : HashableF32,
        HashableF32.beq a b = true ↔ a.val.to_bits = b.val.to_bits)
    ∧ HashableF32.beq ⟨posZero32⟩ ⟨negZero32⟩ = false
    ∧ (∀ x y : f32, x.isNaN → x.bits = y.bits →
        HashableF32.beq ⟨x⟩ ⟨y⟩ = true)
    ∧ (∀ x y : f32, x.isNaN → y.isNaN → x.bits ≠ y.bits →
        HashableF32.beq ⟨x⟩ ⟨y⟩ = false)
    ∧ (∀ a b : HashableF32, HashableF32.beq a b = true →
        HashableF32.hashInput a = HashableF32.hashInput b) := by
  refine ⟨?_, ?_, ?_, ?_, ?_, ?_, ?_, ?_, ?_, ?_⟩
  · intro a b
    simp [HashableF64.beq, f64.to_bits]
  · decide
  · intro x y _ hbits
    simp [HashableF64.beq, f64.to_bits, hbits]
  · intro x y _ _ hne
    simp [HashableF64.beq, f64.to_bits]
    exact hne
  · intro a b h
    simp only [HashableF64.beq, beq_iff_eq] at h
    exact h
  · intro a b
    simp [HashableF32.beq, f32.to_bits]
  · decide
  · intro x y _ hbits
    simp [HashableF32.beq, f32.to_bits, hbits]
  · intro x y _ _ hne
    simp [HashableF32.beq, f32.to_bits]
    exact hne
  · intro a b h
    simp only [HashableF32.beq, beq_iff_eq] at h
    exact h

/-- Witness for C10 at concrete bit patterns: `0x7FF8000000000000` is the
canonical binary64 quiet NaN; `0x7FC00000` and `0x7FC00001` are two binary32
NaNs differing in payload. -/
theorem hashable_float_bit_equality_witness :
    f64.isNaN ⟨0x7FF8000000000000⟩
    ∧ HashableF64.beq ⟨⟨0x7FF8000000000000⟩⟩ ⟨⟨0x7FF8000000000000⟩⟩ = true
    ∧ f32.isNaN ⟨0x7FC00000⟩
    ∧ f32.isNaN ⟨0x7FC00001⟩
    ∧ HashableF32.beq ⟨⟨0x7FC00000⟩⟩ ⟨⟨0x7FC00001⟩⟩ = false :=
  ⟨by decide,
   hashable_float_bit_equality.2.2.1 ⟨0x7FF8000000000000⟩ ⟨0x7FF8000000000000⟩
     (by decide) rfl,
   by decide,
   by decide,
   hashable_float_bit_equality.2.2.2.2.2.2.2.2.1 ⟨0x7FC00000⟩ ⟨0x7FC00001⟩
     (by decide) (by decide) (by decide)⟩

/-- C9: `intern_ref_or_insert_with` invokes `make` zero times on a hit and
zero times on an Overflow failure, and exactly once on a successful miss
(the call count is 1 iff the key is absent and the length is below the
handle capacity); on a hit the result does not depend on `make` at all.
Likewise `intern_ref` performs exactly one `from_ref` conversion on a
successful miss and zero otherwise.  The `_count` instrumentations project
onto the plain operations, so the counts are those of the source control
flow. -/
theorem make_called_once_per_miss :
    (∀ (T Q : Type) [DecidableEq Q] (s : Interner T) (borrow : T → Q)
        (key : Q) (make : Unit → T),
        (intern_ref_or_insert_with_count s borrow key make).1
          = intern_ref_or_insert_with s borrow key make)
    ∧ (∀ (T Q : Type) [DecidableEq Q] (s : Interner T) (borrow : T → Q)
        (key : Q) (make : Unit → T),
        (intern_ref_or_insert_with_count s borrow key make).2
          = if get_index_of borrow key s.items = none
              ∧ s.items.length < s.hcap then 1 else 0)
    ∧ (∀ (T Q : Type) [DecidableEq Q] (s : Interner T) (borrow : T → Q)
        (key : Q) (make₁ make₂ : Unit → T) (idx : Nat),
        get_index_of borrow key s.items = some idx →
        intern_ref_or_insert_with s borrow key make₁
          = intern_ref_or_insert_with s borrow key make₂)
    ∧ (∀ (T Q : Type) [DecidableEq Q] (s : Interner T) (borrow : T → Q)
        (from_ref : Q → T) (item : Q),
        (intern_ref_count s borrow from_ref item).1
          = intern_ref s borrow from_ref item)
    ∧ (∀ (T Q : Type) [DecidableEq Q] (s : Interner T) (borrow : T → Q)
        (from_ref : Q → T) (item : Q),
        (intern_ref_count s borrow from_ref item).2
          = if get_index_of borrow item s.items = none
              ∧ s.items.length < s.hcap then 1 else 0) := by
  refine ⟨?_, ?_, ?_, ?_, ?_⟩
  · intro T Q _ s borrow key make
    unfold intern_ref_or_insert_with_count intern_ref_or_insert_with
    cases get_index_of borrow key s.items with
    | some idx => rfl
    | none =>
      cases idx_to_handle s.hcap s.items.length with
      | ok h => rfl
      | error e => rfl
  · intro T Q _ s borrow key make
    cases hidx : get_index_of borrow key s.items with
    | some idx =>
      have : (intern_ref_or_insert_with_count s borrow key make).2 = 0 := by
        unfold intern_ref_or_insert_with_count
        rw [hidx]
      rw [this]
      simp [hidx]
    | none =>
      by_cases hlt : s.items.length < s.hcap
      · have : (intern_ref_or_insert_with_count s borrow key make).2 = 1 := by
          unfold intern_ref_or_insert_with_count
          rw [hidx, idx_to_handle_ok hlt]
        rw [this]
        simp [hidx, hlt]
      · have : (intern_ref_or_insert_with_count s borrow key make).2 = 0 := by
          unfold intern_ref_or_insert_with_count
          rw [hidx, idx_to_handle_error (Nat.le_of_not_lt hlt)]
        rw [this]
        simp [hidx, hlt]
  · intro T Q _ s borrow key make₁ make₂ idx hidx
    rw [intern_ref_or_insert_with_hit hidx, intern_ref_or_insert_with_hit hidx]
  · intro T Q _ s borrow from_ref item
    unfold intern_ref_count intern_ref
    cases get_index_of borrow item s.items with
    | some idx => rfl
    | none =>
      cases idx_to_handle s.hcap s.items.length with
      | ok h => rfl
      | error e => rfl
  · intro T Q _ s borrow from_ref item
    cases hidx : get_index_of borrow item s.items with
    | some idx =>
      have : (intern_ref_count s borrow from_ref item).2 = 0 := by
        unfold intern_ref_count
        rw [hidx]
      rw [this]
      simp [hidx]
    | none =>
      by_cases hlt : s.items.length < s.hcap
      · have : (intern_ref_count s borrow from_ref item).2 = 1 := by
          unfold intern_ref_count
          rw [hidx, idx_to_handle_ok hlt]
        rw [this]
        simp [hidx, hlt]
      · have : (intern_ref_count s borrow from_ref item).2 = 0 := by
          unfold intern_ref_count
          rw [hidx, idx_to_handle_error (Nat.le_of_not_lt hlt)]
        rw [this]
        simp [hidx, hlt]

/-- Witness for C9: on a store already holding `7`, looking `7` up with two
different `make` closures produces identical results, as the theorem's
hit conjunct demands at index 0. -/
theorem make_called_once_per_miss_witness :
    intern_ref_or_insert_with (⟨4, [7]⟩ : Interner Nat) id 7 (fun _ => 8)
      = intern_ref_or_insert_with (⟨4, [7]⟩ : Interner Nat) id 7 (fun _ => 9) :=
  make_called_once_per_miss.2.2.1 Nat Nat ⟨4, [7]⟩ id 7
    (fun _ => 8) (fun _ => 9) 0 (by decide)

end XgxIntern

namespace XgxIntern

/-- C4: interning a value equal to one already stored, through any intern
variant, returns the handle of the existing slot with the store untouched;
and once an `intern_owned` call has succeeded, interning the same value
again (owned or by reference, any number of times) returns that same handle
and never changes the store, hence never changes `len`. -/
theorem intern_idempotent :
    (∀ (T : Type) [DecidableEq T] (s : Interner T) (item : T) (idx : Nat),
        get_index_of id item s.items = some idx →
        intern_owned s item = (idx_to_handle s.hcap idx, s))
    ∧ (∀ (T Q : Type) [DecidableEq Q] (s : Interner T) (borrow : T → Q)
        (from_ref : Q → T) (key : Q) (idx : Nat),
        get_index_of borrow key s.items = some idx →
        intern_ref s borrow from_ref key = (idx_to_handle s.hcap idx, s))
    ∧ (∀ (T Q : Type) [DecidableEq Q] (s : Interner T) (borrow : T → Q)
        (to_owned : Q → T) (item : Cow Q T) (idx : Nat),
        get_index_of borrow (item.as_ref borrow) s.items = some idx →
        intern_cow s borrow to_owned item = (idx_to_handle s.hcap idx, s))
    ∧ (∀ (T Q : Type) [DecidableEq Q] (s : Interner T) (borrow : T → Q)
        (key : Q) (make : Unit → T) (idx : Nat),
        get_index_of borrow key s.items = some idx →
        intern_ref_or_insert_with s borrow key make
          = (idx_to_handle s.hcap idx, s))
    ∧ (∀ (T : Type) [DecidableEq T] (s s' : Interner T) (item : T) (h : Nat),
        intern_owned s item = (.ok h, s') →
        intern_owned s' item = (.ok h, s')
        ∧ (∀ from_ref : T → T, intern_ref s' id from_ref item = (.ok h, s'))
        ∧ (∀ n : Nat, (fun st => (intern_owned st item).2)^[n] s' = s')) := by
  refine ⟨?_, ?_, ?_, ?_, ?_⟩
  · intro T _ s item idx hidx
    exact intern_owned_hit hidx
  · intro T Q _ s borrow from_ref key idx hidx
    exact intern_ref_hit hidx
  · intro T Q _ s borrow to_owned item idx hidx
    exact intern_cow_hit hidx
  · intro T Q _ s borrow key make idx hidx
    exact intern_ref_or_insert_with_hit hidx
  · intro T _ s s' item h heq
    have hspec := intern_owned_ok_spec
      (show (intern_owned s item).1 = .ok h by rw [heq])
    rw [heq] at hspec
    obtain ⟨hidx', hlt'⟩ := hspec
    have hfix : intern_owned s' item = (.ok h, s') := by
      rw [intern_owned_hit hidx', idx_to_handle_ok hlt']
    refine ⟨hfix, ?_, ?_⟩
    · intro from_ref
      rw [intern_ref_hit hidx', idx_to_handle_ok hlt']
    · intro n
      induction n with
      | zero => rfl
      | succ n ih =>
        rw [Function.iterate_succ_apply', ih]
        simp only [hfix]

/-- Witness for C4: after `5` was interned into the empty store (capacity
4, yielding handle 0 and store `[5]`), interning `5` again returns handle 0
and the unchanged store. -/
theorem intern_idempotent_witness :
    intern_owned (⟨4, [5]⟩ : Interner Nat) 5 = (.ok 0, ⟨4, [5]⟩) :=
  (intern_idempotent.2.2.2.2 Nat ⟨4, []⟩ ⟨4, [5]⟩ 5 0 (by decide)).1

/-- C5: for every handle produced by a successful intern call, `resolve`
returns the value that was interned: the exact item for `intern_owned`;
for `intern_ref` a stored value whose borrowed form equals the key (the
`Borrow`/`FromRef` coherence contract `borrow (from_ref key) = key` is the
hypothesis Rust imposes on those impls); and for `intern_cow` and
`intern_ref_or_insert_with` either the equal pre-existing value (hit) or
exactly the constructed one (miss). -/
theorem resolve_roundtrip :
    (∀ (T : Type) [DecidableEq T] (s : Interner T) (item : T) (h : Nat),
        (intern_owned s item).1 = .ok h →
        resolve (intern_owned s item).2 h = some item)
    ∧ (∀ (T Q : Type) [DecidableEq Q] (s : Interner T) (borrow : T → Q)
        (from_ref : Q → T) (key : Q) (h : Nat),
        borrow (from_ref key) = key →
        (intern_ref s borrow from_ref key).1 = .ok h →
        ∃ t, resolve (intern_ref s borrow from_ref key).2 h = some t
          ∧ borrow t = key)
    ∧ (∀ (T Q : Type) [DecidableEq Q] (s : Interner T) (borrow : T → Q)
        (to_owned : Q → T) (item : Cow Q T) (h : Nat),
        (intern_cow s borrow to_owned item).1 = .ok h →
        ∃ t, resolve (intern_cow s borrow to_owned item).2 h = some t
          ∧ (borrow t = item.as_ref borrow ∨ t = item.into_owned to_owned))
    ∧ (∀ (T Q : Type) [DecidableEq Q] (s : Interner T) (borrow : T → Q)
        (key : Q) (make : Unit → T) (h : Nat),
        (intern_ref_or_insert_with s borrow key make).1 = .ok h →
        ∃ t, resolve (intern_ref_or_insert_with s borrow key make).2 h = some t
          ∧ (borrow t = key ∨ t = make ())) := by
  refine ⟨?_, ?_, ?_, ?_⟩
  · intro T _ s item h hok
    exact intern_owned_ok_getElem hok
  · intro T Q _ s borrow from_ref key h hco hok
    cases hidx : get_index_of borrow key s.items with
    | some idx =>
      rw [intern_ref_hit hidx] at hok ⊢
      obtain ⟨t, ht, hbt⟩ := get_index_of_eq_some hidx
      by_cases hlt : idx < s.hcap
      · rw [idx_to_handle_ok hlt] at hok
        injection hok with hh
        subst hh
        exact ⟨t, ht, hbt⟩
      · rw [idx_to_handle_error (Nat.le_of_not_lt hlt)] at hok
        exact absurd hok (by simp)
    | none =>
      by_cases hlt : s.items.length < s.hcap
      · have heq : intern_ref s borrow from_ref key
            = (.ok s.items.length,
                { s with items := s.items ++ [from_ref key] }) := by
          unfold intern_ref
          rw [hidx, idx_to_handle_ok hlt]
        rw [heq] at hok ⊢
        injection hok with hh
        subst hh
        refine ⟨from_ref key, ?_, hco⟩
        show (s.items ++ [from_ref key])[s.items.length]? = some (from_ref key)
        rw [List.getElem?_append]
        simp
      · have heq : intern_ref s borrow from_ref key = (.error .Overflow, s) := by
          unfold intern_ref
          rw [hidx, idx_to_handle_error (Nat.le_of_not_lt hlt)]
        rw [heq] at hok
        exact absurd hok (by simp)
  · intro T Q _ s borrow to_owned item h hok
    cases hidx : get_index_of borrow (item.as_ref borrow) s.items with
    | some idx =>
      rw [intern_cow_hit hidx] at hok ⊢
      obtain ⟨t, ht, hbt⟩ := get_index_of_eq_some hidx
      by_cases hlt : idx < s.hcap
      · rw [idx_to_handle_ok hlt] at hok
        injection hok with hh
        subst hh
        exact ⟨t, ht, Or.inl hbt⟩
      · rw [idx_to_handle_error (Nat.le_of_not_lt hlt)] at hok
        exact absurd hok (by simp)
    | none =>
      by_cases hlt : s.items.length < s.hcap
      · have heq : intern_cow s borrow to_owned item
            = (.ok s.items.length,
                { s with items := s.items ++ [item.into_owned to_owned] }) := by
          unfold intern_cow
          rw [hidx, idx_to_handle_ok hlt]
        rw [heq] at hok ⊢
        injection hok with hh
        subst hh
        refine ⟨item.into_owned to_owned, ?_, Or.inr rfl⟩
        show (s.items ++ [item.into_owned to_owned])[s.items.length]?
          = some (item.into_owned to_owned)
        rw [List.getElem?_append]
        simp
      · have heq : intern_cow s borrow to_owned item = (.error .Overflow, s) := by
          unfold intern_cow
          rw [hidx, idx_to_handle_error (Nat.le_of_not_lt hlt)]
        rw [heq] at hok
        exact absurd hok (by simp)
  · intro T Q _ s borrow key make h hok
    cases hidx : get_index_of borrow key s.items with
    | some idx =>
      rw [intern_ref_or_insert_with_hit hidx] at hok ⊢
      obtain ⟨t, ht, hbt⟩ := get_index_of_eq_some hidx
      by_cases hlt : idx < s.hcap
      · rw [idx_to_handle_ok hlt] at hok
        injection hok with hh
        subst hh
        exact ⟨t, ht, Or.inl hbt⟩
      · rw [idx_to_handle_error (Nat.le_of_not_lt hlt)] at hok
        exact absurd hok (by simp)
    | none =>
      by_cases hlt : s.items.length < s.hcap
      · have heq : intern_ref_or_insert_with s borrow key make
            = (.ok s.items.length, { s with items := s.items ++ [make ()] }) := by
          unfold intern_ref_or_insert_with
          rw [hidx, idx_to_handle_ok hlt]
        rw [heq] at hok ⊢
        injection hok with hh
        subst hh
        refine ⟨make (), ?_, Or.inr rfl⟩
        show (s.items ++ [make ()])[s.items.length]? = some (make ())
        rw [List.getElem?_append]
        simp
      · have heq : intern_ref_or_insert_with s borrow key make
            = (.error .Overflow, s) := by
          unfold intern_ref_or_insert_with
          rw [hidx, idx_to_handle_error (Nat.le_of_not_lt hlt)]
        rw [heq] at hok
        exact absurd hok (by simp)

/-- Witness for C5: interning `5` into the empty store of capacity 4 yields
handle 0, and resolving handle 0 afterwards yields `5`. -/
theorem resolve_roundtrip_witness :
    resolve (intern_owned (⟨4, []⟩ : Interner Nat) 5).2 0 = some 5 :=
  resolve_roundtrip.1 Nat ⟨4, []⟩ 5 0 (by decide)

end XgxIntern

namespace XgxIntern

set_option maxRecDepth 100000

/-- C1: every intern operation fails with `Overflow` exactly when the
argument is not already present and the current length is not representable
in the handle type (`hcap ≤ len`), and a failed call leaves the store
unchanged; with an 8-bit handle type (`hcap = 256`), interning 256 distinct
values succeeds with handles `0..255`, interning a 257th distinct value
fails with `Overflow`, and the store (hence `len = 256`) is unchanged. -/
theorem intern_overflow_transactional :
    (∀ (T : Type) [DecidableEq T] (s : Interner T) (item : T),
        ((intern_owned s item).1 = .error .Overflow →
            (intern_owned s item).2 = s)
        ∧ (s.items.length ≤ s.hcap →
            ((intern_owned s item).1 = .error .Overflow
              ↔ item ∉ s.items ∧ s.hcap ≤ s.items.length)))
    ∧ (∀ (T Q : Type) [DecidableEq Q] (s : Interner T) (borrow : T → Q)
        (from_ref : Q → T) (key : Q),
        ((intern_ref s borrow from_ref key).1 = .error .Overflow →
            (intern_ref s borrow from_ref key).2 = s)
        ∧ (s.items.length ≤ s.hcap →
            ((intern_ref s borrow from_ref key).1 = .error .Overflow
              ↔ (∀ t ∈ s.items, borrow t ≠ key) ∧ s.hcap ≤ s.items.length)))
    ∧ (∀ (T Q : Type) [DecidableEq Q] (s : Interner T) (borrow : T → Q)
        (to_owned : Q → T) (item : Cow Q T),
        ((intern_cow s borrow to_owned item).1 = .error .Overflow →
            (intern_cow s borrow to_owned item).2 = s)
        ∧ (s.items.length ≤ s.hcap →
            ((intern_cow s borrow to_owned item).1 = .error .Overflow
              ↔ (∀ t ∈ s.items, borrow t ≠ item.as_ref borrow)
                ∧ s.hcap ≤ s.items.length)))
    ∧ (∀ (T Q : Type) [DecidableEq Q] (s : Interner T) (borrow : T → Q)
        (key : Q) (make : Unit → T),
        ((intern_ref_or_insert_with s borrow key make).1 = .error .Overflow →
            (intern_ref_or_insert_with s borrow key make).2 = s)
        ∧ (s.items.length ≤ s.hcap →
            ((intern_ref_or_insert_with s borrow key make).1 = .error .Overflow
              ↔ (∀ t ∈ s.items, borrow t ≠ key) ∧ s.hcap ≤ s.items.length)))
    ∧ ((internAll (⟨256, []⟩ : Interner Nat) (List.range 256)).1
          = (List.range 256).map Except.ok
        ∧ (internAll (⟨256, []⟩ : Interner Nat) (List.range 256)).2.items.length
          = 256
        ∧ (intern_owned
            (internAll (⟨256, []⟩ : Interner Nat) (List.range 256)).2 256).1
          = .error .Overflow
        ∧ (intern_owned
            (internAll (⟨256, []⟩ : Interner Nat) (List.range 256)).2 256).2
          = (internAll (⟨256, []⟩ : Interner Nat) (List.range 256)).2) := by
  have trans_owned : ∀ (T : Type) [DecidableEq T] (s : Interner T) (item : T),
      (intern_owned s item).1 = .error .Overflow →
      (intern_owned s item).2 = s := by
    intro T _ s item herr
    rcases intern_owned_snd_cases s item with hc | ⟨hlt, hc⟩
    · exact hc
    · have : intern_owned s item
          = (.ok s.items.length, { s with items := s.items ++ [item] }) := by
        unfold intern_owned
        cases hidx : get_index_of id item s.items with
        | some idx =>
          exfalso
          rw [intern_owned_hit hidx] at hc
          have : s.items = s.items ++ [item] := congrArg Interner.items hc
          simpa using congrArg List.length this
        | none => rw [idx_to_handle_ok hlt]
      rw [this] at herr
      exact absurd herr (by simp)
  refine ⟨?_, ?_, ?_, ?_, ?_⟩
  · intro T _ s item
    refine ⟨trans_owned T s item, ?_⟩
    intro hle
    cases hidx : get_index_of id item s.items with
    | some idx =>
      have hlt : idx < s.hcap :=
        Nat.lt_of_lt_of_le (get_index_of_lt_length hidx) hle
      rw [intern_owned_hit hidx, idx_to_handle_ok hlt]
      constructor
      · intro h
        exact absurd h (by simp)
      · rintro ⟨hnot, -⟩
        have := (get_index_of_id_eq_none_iff item s.items).mpr hnot
        rw [this] at hidx
        exact Option.noConfusion hidx
    | none =>
      have hnot : item ∉ s.items := (get_index_of_id_eq_none_iff item s.items).mp hidx
      by_cases hlt : s.items.length < s.hcap
      · have : intern_owned s item
            = (.ok s.items.length, { s with items := s.items ++ [item] }) := by
          unfold intern_owned
          rw [hidx, idx_to_handle_ok hlt]
        rw [this]
        constructor
        · intro h
          exact absurd h (by simp)
        · rintro ⟨-, hge⟩
          exact absurd hge (Nat.not_le_of_lt hlt)
      · have : intern_owned s item = (.error .Overflow, s) := by
          unfold intern_owned
          rw [hidx, idx_to_handle_error (Nat.le_of_not_lt hlt)]
        rw [this]
        simp only [true_iff]
        exact ⟨hnot, Nat.le_of_not_lt hlt⟩
  · intro T Q _ s borrow from_ref key
    constructor
    · intro herr
      cases hidx : get_index_of borrow key s.items with
      | some idx => rw [intern_ref_hit hidx]
      | none =>
        by_cases hlt : s.items.length < s.hcap
        · have : intern_ref s borrow from_ref key
              = (.ok s.items.length,
                  { s with items := s.items ++ [from_ref key] }) := by
            unfold intern_ref
            rw [hidx, idx_to_handle_ok hlt]
          rw [this] at herr
          exact absurd herr (by simp)
        · have : intern_ref s borrow from_ref key = (.error .Overflow, s) := by
            unfold intern_ref
            rw [hidx, idx_to_handle_error (Nat.le_of_not_lt hlt)]
          rw [this]
    · intro hle
      cases hidx : get_index_of borrow key s.items with
      | some idx =>
        have hlt : idx < s.hcap :=
          Nat.lt_of_lt_of_le (get_index_of_lt_length hidx) hle
        rw [intern_ref_hit hidx, idx_to_handle_ok hlt]
        constructor
        · intro h
          exact absurd h (by simp)
        · rintro ⟨hnot, -⟩
          have := (get_index_of_eq_none_iff borrow key s.items).mpr hnot
          rw [this] at hidx
          exact Option.noConfusion hidx
      | none =>
        have hnot := (get_index_of_eq_none_iff borrow key s.items).mp hidx
        by_cases hlt : s.items.length < s.hcap
        · have : intern_ref s borrow from_ref key
              = (.ok s.items.length,
                  { s with items := s.items ++ [from_ref key] }) := by
            unfold intern_ref
            rw [hidx, idx_to_handle_ok hlt]
          rw [this]
          constructor
          · intro h
            exact absurd h (by simp)
          · rintro ⟨-, hge⟩
            exact absurd hge (Nat.not_le_of_lt hlt)
        · have : intern_ref s borrow from_ref key = (.error .Overflow, s) := by
            unfold intern_ref
            rw [hidx, idx_to_handle_error (Nat.le_of_not_lt hlt)]
          rw [this]
          simp only [true_iff]
          exact ⟨hnot, Nat.le_of_not_lt hlt⟩
  · intro T Q _ s borrow to_owned item
    constructor
    · intro herr
      cases hidx : get_index_of borrow (item.as_ref borrow) s.items with
      | some idx => rw [intern_cow_hit hidx]
      | none =>
        by_cases hlt : s.items.length < s.hcap
        · have : intern_cow s borrow to_owned item
              = (.ok s.items.length,
                  { s with items := s.items ++ [item.into_owned to_owned] }) := by
            unfold intern_cow
            rw [hidx, idx_to_handle_ok hlt]
          rw [this] at herr
          exact absurd herr (by simp)
        · have : intern_cow s borrow to_owned item = (.error .Overflow, s) := by
            unfold intern_cow
            rw [hidx, idx_to_handle_error (Nat.le_of_not_lt hlt)]
          rw [this]
    · intro hle
      cases hidx : get_index_of borrow (item.as_ref borrow) s.items with
      | some idx =>
        have hlt : idx < s.hcap :=
          Nat.lt_of_lt_of_le (get_index_of_lt_length hidx) hle
        rw [intern_cow_hit hidx, idx_to_handle_ok hlt]
        constructor
        · intro h
          exact absurd h (by simp)
        · rintro ⟨hnot, -⟩
          have := (get_index_of_eq_none_iff borrow (item.as_ref borrow) s.items).mpr hnot
          rw [this] at hidx
          exact Option.noConfusion hidx
      | none =>
        have hnot := (get_index_of_eq_none_iff borrow (item.as_ref borrow) s.items).mp hidx
        by_cases hlt : s.items.length < s.hcap
        · have : intern_cow s borrow to_owned item
              = (.ok s.items.length,
                  { s with items := s.items ++ [item.into_owned to_owned] }) := by
            unfold intern_cow
            rw [hidx, idx_to_handle_ok hlt]
          rw [this]
          constructor
          · intro h
            exact absurd h (by simp)
          · rintro ⟨-, hge⟩
            exact absurd hge (Nat.not_le_of_lt hlt)
        · have : intern_cow s borrow to_owned item = (.error .Overflow, s) := by
            unfold intern_cow
            rw [hidx, idx_to_handle_error (Nat.le_of_not_lt hlt)]
          rw [this]
          simp only [true_iff]
          exact ⟨hnot, Nat.le_of_not_lt hlt⟩
  · intro T Q _ s borrow key make
    constructor
    · intro herr
      cases hidx : get_index_of borrow key s.items with
      | some idx => rw [intern_ref_or_insert_with_hit hidx]
      | none =>
        by_cases hlt : s.items.length < s.hcap
        · have : intern_ref_or_insert_with s borrow key make
              = (.ok s.items.length, { s with items := s.items ++ [make ()] }) := by
            unfold intern_ref_or_insert_with
            rw [hidx, idx_to_handle_ok hlt]
          rw [this] at herr
          exact absurd herr (by simp)
        · have : intern_ref_or_insert_with s borrow key make
              = (.error .Overflow, s) := by
            unfold intern_ref_or_insert_with
            rw [hidx, idx_to_handle_error (Nat.le_of_not_lt hlt)]
          rw [this]
    · intro hle
      cases hidx : get_index_of borrow key s.items with
      | some idx =>
        have hlt : idx < s.hcap :=
          Nat.lt_of_lt_of_le (get_index_of_lt_length hidx) hle
        rw [intern_ref_or_insert_with_hit hidx, idx_to_handle_ok hlt]
        constructor
        · intro h
          exact absurd h (by simp)
        · rintro ⟨hnot, -⟩
          have := (get_index_of_eq_none_iff borrow key s.items).mpr hnot
          rw [this] at hidx
          exact Option.noConfusion hidx
      | none =>
        have hnot := (get_index_of_eq_none_iff borrow key s.items).mp hidx
        by_cases hlt : s.items.length < s.hcap
        · have : intern_ref_or_insert_with s borrow key make
              = (.ok s.items.length, { s with items := s.items ++ [make ()] }) := by
            unfold intern_ref_or_insert_with
            rw [hidx, idx_to_handle_ok hlt]
          rw [this]
          constructor
          · intro h
            exact absurd h (by simp)
          · rintro ⟨-, hge⟩
            exact absurd hge (Nat.not_le_of_lt hlt)
        · have : intern_ref_or_insert_with s borrow key make
              = (.error .Overflow, s) := by
            unfold intern_ref_or_insert_with
            rw [hidx, idx_to_handle_error (Nat.le_of_not_lt hlt)]
          rw [this]
          simp only [true_iff]
          exact ⟨hnot, Nat.le_of_not_lt hlt⟩
  · exact ⟨by decide, by decide, by decide, by decide⟩

/-- Witness for C1: on a full one-slot store holding `0`, interning the new
value `1` fails with `Overflow` exactly as the iff for `intern_owned`
states. -/
theorem intern_overflow_transactional_witness :
    (intern_owned (⟨1, [0]⟩ : Interner Nat) 1).1 = .error .Overflow
      ↔ 1 ∉ (⟨1, [0]⟩ : Interner Nat).items
        ∧ (⟨1, [0]⟩ : Interner Nat).hcap
            ≤ (⟨1, [0]⟩ : Interner Nat).items.length :=
  (intern_overflow_transactional.1 Nat ⟨1, [0]⟩ 1).2 (by decide)

end XgxIntern

namespace XgxIntern

/-- C2: `remove` deletes the matching slot, shifts every higher index down
by one, and returns the pre-removal handle with the removed value (`None`
when the key matches nothing); `remove_handle` does the same keyed by
handle, returning the removed value.  After a removal at index `r`,
resolving `j` yields the old slot `j` for `j < r` and the old slot `j + 1`
otherwise.  Concretely, with `"A","B","C"` interned to handles `0,1,2`,
`remove("B")` returns `(1, "B")`, and afterwards handle 0 resolves to
`"A"`, handle 2 to nothing, and handle 1 to `"C"`. -/
theorem remove_shift_semantics :
    (∀ (T Q : Type) [DecidableEq Q] (s : Interner T) (borrow : T → Q)
        (key : Q),
        get_index_of borrow key s.items = none →
        remove s borrow key = (none, s))
    ∧ (∀ (T Q : Type) [DecidableEq Q] (s : Interner T) (borrow : T → Q)
        (key : Q) (idx : Nat) (v : T),
        get_index_of borrow key s.items = some idx →
        s.items[idx]? = some v → idx < s.hcap →
        remove s borrow key
          = (some (idx, v), { s with items := s.items.eraseIdx idx }))
    ∧ (∀ (T : Type) (s : Interner T) (h : Nat) (v : T),
        s.items[h]? = some v →
        remove_handle s h = (some v, { s with items := s.items.eraseIdx h }))
    ∧ (∀ (T : Type) (s : Interner T) (h : Nat),
        s.items.length ≤ h → remove_handle s h = (none, s))
    ∧ (∀ (T : Type) (s : Interner T) (r j : Nat),
        r < s.items.length →
        resolve (remove_handle s r).2 j
          = if j < r then resolve s j else resolve s (j + 1))
    ∧ ((internAll (⟨256, []⟩ : Interner String) ["A", "B", "C"]).1
          = [.ok 0, .ok 1, .ok 2]
        ∧ (internAll (⟨256, []⟩ : Interner String) ["A", "B", "C"]).2
          = ⟨256, ["A", "B", "C"]⟩
        ∧ remove (⟨256, ["A", "B", "C"]⟩ : Interner String) id "B"
          = (some (1, "B"), ⟨256, ["A", "C"]⟩)
        ∧ resolve (⟨256, ["A", "C"]⟩ : Interner String) 0 = some "A"
        ∧ resolve (⟨256, ["A", "C"]⟩ : Interner String) 2 = none
        ∧ resolve (⟨256, ["A", "C"]⟩ : Interner String) 1 = some "C") := by
  refine ⟨?_, ?_, ?_, ?_, ?_, ?_⟩
  · intro T Q _ s borrow key hidx
    unfold remove
    rw [hidx]
  · intro T Q _ s borrow key idx v hidx hv hlt
    unfold remove
    simp only [hidx, hv, hlt, if_true]
  · intro T s h v hv
    unfold remove_handle
    rw [hv]
  · intro T s h hge
    unfold remove_handle
    rw [List.getElem?_eq_none hge]
  · intro T s r j hr
    have hv : s.items[r]? = some (s.items.get ⟨r, hr⟩) := List.getElem?_eq_getElem hr
    have : remove_handle s r
        = (some (s.items.get ⟨r, hr⟩), { s with items := s.items.eraseIdx r }) := by
      unfold remove_handle
      rw [hv]
    rw [this]
    show (s.items.eraseIdx r)[j]? = if j < r then s.items[j]? else s.items[j + 1]?
    exact List.getElem?_eraseIdx s.items r j
  · exact ⟨by decide, by decide, by decide, by decide, by decide, by decide⟩

/-- Witness for C2: removing handle 0 from the two-slot store `[10, 20]`
returns `10` and leaves `[20]`, with the surviving value shifted down. -/
theorem remove_shift_semantics_witness :
    remove_handle (⟨4, [10, 20]⟩ : Interner Nat) 0 = (some 10, ⟨4, [20]⟩) :=
  remove_shift_semantics.2.2.1 Nat ⟨4, [10, 20]⟩ 0 10 (by decide)

/-- C3: `repair_handles` decrements by one exactly the held handles
strictly greater than the removed handle and leaves the rest unchanged
(every held handle being of the handle type, i.e. below `hcap`); the list
`[0, 1, 2]` repaired with removed handle 1 becomes `[0, 1, 1]`; and for a
value that sat above the removed slot, resolving its repaired handle
`h - 1` after the removal yields the same value that handle `h` resolved
to before. -/
theorem repair_handles_spec :
    (∀ (T : Type) (s : Interner T) (removed : Nat) (handles : List Nat),
        (∀ h ∈ handles, h < s.hcap) →
        repair_handles s removed handles
          = handles.map (fun h => if removed < h then h - 1 else h))
    ∧ repair_handles (⟨256, ["A", "C"]⟩ : Interner String) 1 [0, 1, 2]
        = [0, 1, 1]
    ∧ (∀ (T : Type) (s : Interner T) (r h : Nat),
        r < h → r < s.items.length →
        resolve (remove_handle s r).2 (h - 1) = resolve s h) := by
  refine ⟨?_, by decide, ?_⟩
  · intro T s removed handles hb
    unfold repair_handles
    apply List.map_congr_left
    intro h hmem
    by_cases hgt : removed < h
    · have : h - 1 < s.hcap := Nat.lt_of_le_of_lt (Nat.sub_le h 1) (hb h hmem)
      simp [hgt, this]
    · simp [hgt]
  · intro T s r h hrh hr
    have hv : s.items[r]? = some (s.items.get ⟨r, hr⟩) := List.getElem?_eq_getElem hr
    have heq : remove_handle s r
        = (some (s.items.get ⟨r, hr⟩), { s with items := s.items.eraseIdx r }) := by
      unfold remove_handle
      rw [hv]
    rw [heq]
    show (s.items.eraseIdx r)[h - 1]? = s.items[h]?
    rw [List.getElem?_eraseIdx s.items r (h - 1)]
    have hnot : ¬ (h - 1 < r) := by omega
    rw [if_neg hnot]
    congr 1
    omega

/-- Witness for C3: repairing the externally held handles `[0, 1, 2]` after
removing handle 1 (in an 8-bit-handle store) decrements exactly the
handles above 1. -/
theorem repair_handles_spec_witness :
    repair_handles (⟨256, ([] : List Nat)⟩ : Interner Nat) 1 [0, 1, 2]
      = [0, 1, 2].map (fun h => if 1 < h then h - 1 else h) :=
  repair_handles_spec.1 Nat ⟨256, []⟩ 1 [0, 1, 2] (by decide)

end XgxIntern

namespace XgxIntern

theorem length_eraseIdx_le {α : Type} (l : List α) (i : Nat) :
    (l.eraseIdx i).length ≤ l.length := by
  rw [List.length_eraseIdx]
  split <;> omega

theorem internOnly_extends {T : Type} [DecidableEq T] {s s' : Interner T}
    (h : InternOnly s s') :
    s'.hcap = s.hcap ∧ ∃ r, s'.items = s.items ++ r := by
  induction h with
  | refl s => exact ⟨rfl, [], by simp⟩
  | owned_step s s' item _ ih =>
    obtain ⟨hc, r, hr⟩ := ih
    rcases intern_owned_snd_cases s' item with he | ⟨-, he⟩
    · rw [he]
      exact ⟨hc, r, hr⟩
    · rw [he]
      exact ⟨hc, r ++ [item], by simp [hr]⟩
  | ref_step s s' borrow from_ref item _ ih =>
    obtain ⟨hc, r, hr⟩ := ih
    rcases intern_ref_snd_cases s' borrow from_ref item with he | ⟨-, he⟩
    · rw [he]
      exact ⟨hc, r, hr⟩
    · rw [he]
      exact ⟨hc, r ++ [from_ref item], by simp [hr]⟩
  | cow_step s s' borrow to_owned item _ ih =>
    obtain ⟨hc, r, hr⟩ := ih
    rcases intern_cow_snd_cases s' borrow to_owned item with he | ⟨-, he⟩
    · rw [he]
      exact ⟨hc, r, hr⟩
    · rw [he]
      exact ⟨hc, r ++ [item.into_owned to_owned], by simp [hr]⟩
  | insert_with_step s s' borrow key make _ ih =>
    obtain ⟨hc, r, hr⟩ := ih
    rcases intern_ref_or_insert_with_snd_cases s' borrow key make with he | ⟨-, he⟩
    · rw [he]
      exact ⟨hc, r, hr⟩
    · rw [he]
      exact ⟨hc, r ++ [make ()], by simp [hr]⟩

/-- C6: in a store built by intern operations with no removal, every
present handle keeps resolving to its value through any further intern
calls, and `export` returns the sequence whose element at position `h` is
the value associated with handle `h`; in particular, for a handle produced
by a successful `intern_owned`, the exported element at that position is
the interned value. -/
theorem export_order_law :
    (∀ (T : Type) [DecidableEq T] (s s' : Interner T),
        InternOnly s s' → ∀ (h : Nat) (v : T),
        resolve s h = some v → (exportItems s')[h]? = some v)
    ∧ (∀ (T : Type) [DecidableEq T] (s s₂ : Interner T) (item : T) (h : Nat),
        (intern_owned s item).1 = .ok h →
        InternOnly (intern_owned s item).2 s₂ →
        (exportItems s₂)[h]? = some item) := by
  have stable : ∀ (T : Type) [DecidableEq T] (s s' : Interner T),
      InternOnly s s' → ∀ (h : Nat) (v : T),
      resolve s h = some v → (exportItems s')[h]? = some v := by
    intro T _ s s' hext h v hres
    obtain ⟨-, r, hr⟩ := internOnly_extends hext
    have hlt : h < s.items.length := by
      by_contra hge
      rw [resolve, List.getElem?_eq_none (Nat.le_of_not_lt hge)] at hres
      exact Option.noConfusion hres
    show s'.items[h]? = some v
    rw [hr, List.getElem?_append, if_pos hlt]
    exact hres
  refine ⟨stable, ?_⟩
  intro T _ s s₂ item h hok hext
  exact stable T (intern_owned s item).2 s₂ hext h item
    (intern_owned_ok_getElem hok)

/-- Witness for C6: interning `7` into an empty store yields handle 0, and
exporting (with no further operations) places `7` at position 0. -/
theorem export_order_law_witness :
    (exportItems (intern_owned (⟨4, []⟩ : Interner Nat) 7).2)[0]? = some 7 :=
  export_order_law.2 Nat ⟨4, []⟩ (intern_owned (⟨4, []⟩ : Interner Nat) 7).2
    7 0 (by decide) (.refl _)

theorem reachable_len_le {T : Type} [DecidableEq T] {s : Interner T}
    (h : Reachable s) : s.items.length ≤ s.hcap := by
  induction h with
  | new hcap => simp
  | owned_step s item _ ih =>
    rcases intern_owned_snd_cases s item with he | ⟨hlt, he⟩
    · rw [he]
      exact ih
    · rw [he]
      simpa using hlt
  | ref_step s borrow from_ref item _ ih =>
    rcases intern_ref_snd_cases s borrow from_ref item with he | ⟨hlt, he⟩
    · rw [he]
      exact ih
    · rw [he]
      simpa using hlt
  | cow_step s borrow to_owned item _ ih =>
    rcases intern_cow_snd_cases s borrow to_owned item with he | ⟨hlt, he⟩
    · rw [he]
      exact ih
    · rw [he]
      simpa using hlt
  | insert_with_step s borrow key make _ ih =>
    rcases intern_ref_or_insert_with_snd_cases s borrow key make with he | ⟨hlt, he⟩
    · rw [he]
      exact ih
    · rw [he]
      simpa using hlt
  | remove_step s borrow key _ ih =>
    have hcases : (remove s borrow key).2 = s
        ∨ ∃ idx, (remove s borrow key).2
            = { s with items := s.items.eraseIdx idx } := by
      cases hidx : get_index_of borrow key s.items with
      | none =>
        left
        unfold remove
        simp only [hidx]
      | some idx =>
        cases hv : s.items[idx]? with
        | none =>
          left
          unfold remove
          simp only [hidx, hv]
        | some val =>
          right
          refine ⟨idx, ?_⟩
          unfold remove
          simp only [hidx, hv]
          split <;> rfl
    rcases hcases with he | ⟨idx, he⟩
    · rw [he]
      exact ih
    · rw [he]
      exact Nat.le_trans (length_eraseIdx_le s.items idx) ih
  | remove_handle_step s hdl _ ih =>
    have hcases : (remove_handle s hdl).2 = s
        ∨ (remove_handle s hdl).2 = { s with items := s.items.eraseIdx hdl } := by
      unfold remove_handle
      cases hv : s.items[hdl]? with
      | none => exact Or.inl rfl
      | some val => exact Or.inr rfl
    rcases hcases with he | he
    · rw [he]
      exact ih
    · rw [he]
      exact Nat.le_trans (length_eraseIdx_le s.items hdl) ih
  | clear_step s _ ih => simp [clear]

/-- C8: in every store reachable from an empty store via the public
operations, every occupied index converts successfully to the handle type;
consequently `lookup_handle` and intern calls that hit an existing value
never return `Overflow` (and a hit mutates nothing), and an `Overflow`
from `intern_owned` can only arise for a genuinely new value.  (`contains`
and `resolve` return `Bool`/`Option` and cannot raise at all.) -/
theorem reachable_no_overflow :
    ∀ (T : Type) [DecidableEq T] (s : Interner T), Reachable s →
    (∀ idx, idx < s.items.length → idx_to_handle s.hcap idx = .ok idx)
    ∧ (∀ (Q : Type) [DecidableEq Q] (borrow : T → Q) (key : Q),
        lookup_handle s borrow key ≠ .error .Overflow)
    ∧ (∀ (item : T) (idx : Nat), get_index_of id item s.items = some idx →
        (intern_owned s item).1 = .ok idx ∧ (intern_owned s item).2 = s)
    ∧ (∀ (Q : Type) [DecidableEq Q] (borrow : T → Q) (from_ref : Q → T)
        (key : Q) (idx : Nat),
        get_index_of borrow key s.items = some idx →
        (intern_ref s borrow from_ref key).1 = .ok idx)
    ∧ (∀ (Q : Type) [DecidableEq Q] (borrow : T → Q) (to_owned : Q → T)
        (item : Cow Q T) (idx : Nat),
        get_index_of borrow (item.as_ref borrow) s.items = some idx →
        (intern_cow s borrow to_owned item).1 = .ok idx)
    ∧ (∀ (Q : Type) [DecidableEq Q] (borrow : T → Q) (key : Q)
        (make : Unit → T) (idx : Nat),
        get_index_of borrow key s.items = some idx →
        (intern_ref_or_insert_with s borrow key make).1 = .ok idx)
    ∧ (∀ item : T, (intern_owned s item).1 = .error .Overflow →
        item ∉ s.items) := by
  intro T _ s hreach
  have hle : s.items.length ≤ s.hcap := reachable_len_le hreach
  have hok : ∀ idx, idx < s.items.length → idx_to_handle s.hcap idx = .ok idx :=
    fun idx hlt => idx_to_handle_ok (Nat.lt_of_lt_of_le hlt hle)
  refine ⟨hok, ?_, ?_, ?_, ?_, ?_, ?_⟩
  · intro Q _ borrow key
    cases hidx : get_index_of borrow key s.items with
    | none =>
      have heq : lookup_handle s borrow key = .ok none := by
        unfold lookup_handle
        rw [hidx]
      rw [heq]
      simp
    | some idx =>
      have heq : lookup_handle s borrow key
          = (idx_to_handle s.hcap idx).map some := by
        unfold lookup_handle
        rw [hidx]
      rw [heq, hok idx (get_index_of_lt_length hidx)]
      simp [Except.map]
  · intro item idx hidx
    rw [intern_owned_hit hidx, hok idx (get_index_of_lt_length hidx)]
    exact ⟨rfl, rfl⟩
  · intro Q _ borrow from_ref key idx hidx
    rw [intern_ref_hit hidx, hok idx (get_index_of_lt_length hidx)]
  · intro Q _ borrow to_owned item idx hidx
    rw [intern_cow_hit hidx, hok idx (get_index_of_lt_length hidx)]
  · intro Q _ borrow key make idx hidx
    rw [intern_ref_or_insert_with_hit hidx, hok idx (get_index_of_lt_length hidx)]
  · intro item herr hmem
    cases hidx : get_index_of id item s.items with
    | none =>
      exact absurd hmem ((get_index_of_id_eq_none_iff item s.items).mp hidx)
    | some idx =>
      rw [intern_owned_hit hidx, hok idx (get_index_of_lt_length hidx)] at herr
      exact absurd herr (by simp)

/-- Witness for C8: the store `{0}` of capacity 2, reached by interning `0`
into a fresh store, admits no `Overflow` from `lookup_handle`. -/
theorem reachable_no_overflow_witness :
    lookup_handle (intern_owned (⟨2, []⟩ : Interner Nat) 0).2 id 0
      ≠ .error .Overflow :=
  (reachable_no_overflow Nat (intern_owned (⟨2, []⟩ : Interner Nat) 0).2
    (.owned_step ⟨2, []⟩ 0 (.new 2))).2.1 Nat id 0

end XgxIntern

namespace XgxIntern

theorem export_arena_foldl {T : Type} (f : T → List Char) (l : List T)
    (a : List Char) (o : List Nat) :
    l.foldl
      (fun acc item =>
        let arena := acc.1 ++ f item
        (arena, acc.2 ++ [arena.length]))
      (a, o)
      = (a ++ (l.map f).flatten, o ++ arena_offsets f a.length l) := by
  induction l generalizing a o with
  | nil => simp [arena_offsets]
  | cons t ts ih =>
    simp only [List.foldl_cons, List.map_cons, List.flatten_cons, arena_offsets]
    rw [ih]
    simp [List.append_assoc, List.length_append]

theorem export_arena_eq {T : Type} (s : Interner T) (f : T → List Char) :
    export_arena s f
      = ((s.items.map f).flatten, 0 :: arena_offsets f 0 s.items) := by
  unfold export_arena
  rw [export_arena_foldl]
  simp

theorem arena_offsets_length {T : Type} (f : T → List Char) (b : Nat)
    (l : List T) : (arena_offsets f b l).length = l.length := by
  induction l generalizing b with
  | nil => rfl
  | cons t ts ih => simp [arena_offsets, ih]

theorem sum_len_append {T : Type} (f : T → List Char) (l l' : List T) :
    sum_len f (l ++ l') = sum_len f l + sum_len f l' := by
  induction l with
  | nil => simp [sum_len]
  | cons t ts ih => simp [sum_len, ih, Nat.add_assoc]

theorem arena_offsets_getElem {T : Type} (f : T → List Char) (b : Nat)
    (l : List T) (i : Nat) :
    (arena_offsets f b l)[i]?
      = if i < l.length then some (b + sum_len f (l.take (i + 1))) else none := by
  induction l generalizing b i with
  | nil => simp [arena_offsets]
  | cons t ts ih =>
    cases i with
    | zero => simp [arena_offsets, sum_len]
    | succ i =>
      simp only [arena_offsets, List.getElem?_cons_succ, ih, List.take_succ_cons,
        sum_len, List.length_cons]
      by_cases hi : i < ts.length
      · rw [if_pos hi, if_pos (Nat.succ_lt_succ hi)]
        rw [Nat.add_assoc]
      · rw [if_neg hi, if_neg (fun hc => hi (Nat.lt_of_succ_lt_succ hc))]

theorem arena_offsets_chain {T : Type} (f : T → List Char) (b : Nat)
    (l : List T) : List.Chain' (· ≤ ·) (b :: arena_offsets f b l) := by
  induction l generalizing b with
  | nil => simp [arena_offsets]
  | cons t ts ih =>
    simp only [arena_offsets]
    exact List.Chain'.cons (Nat.le_add_right b (f t).length)
      (ih (b + (f t).length))

theorem take_append_self (xs ys : List Char) : (xs ++ ys).take xs.length = xs := by
  induction xs with
  | nil => rfl
  | cons x xs ih => simp [ih]

theorem drop_append_self (xs ys : List Char) (k : Nat) :
    (xs ++ ys).drop (xs.length + k) = ys.drop k := by
  induction xs with
  | nil => simp
  | cons x xs ih =>
    simp only [List.cons_append, List.length_cons]
    rw [Nat.add_right_comm, List.drop_succ_cons]
    exact ih

theorem flatten_slice {T : Type} (f : T → List Char) (l : List T) (i : Nat)
    (v : T) (hv : l[i]? = some v) :
    (((l.map f).flatten.drop (sum_len f (l.take i))).take (f v).length) = f v := by
  induction l generalizing i with
  | nil => simp at hv
  | cons t ts ih =>
    cases i with
    | zero =>
      simp only [List.getElem?_cons_zero, Option.some.injEq] at hv
      subst hv
      simp only [List.take_zero, sum_len, List.drop_zero, List.map_cons,
        List.flatten_cons]
      exact take_append_self _ _
    | succ i =>
      simp only [List.getElem?_cons_succ] at hv
      simp only [List.take_succ_cons, sum_len, List.map_cons, List.flatten_cons]
      rw [drop_append_self]
      exact ih i hv

/-- C7 counterexample: the claim's "strictly increasing" fails on the code.
Interning the empty string (a legal store value) gives the store `[""]`,
whose `export_arena` offsets table is `[0, 0]` — not strictly increasing. -/
theorem export_arena_offsets_not_strict :
    (intern_owned (⟨4, []⟩ : Interner String) "").2
        = (⟨4, [""]⟩ : Interner String)
    ∧ (export_arena (⟨4, [""]⟩ : Interner String)
        (fun t => t.toList)).2 = [0, 0]
    ∧ ¬ List.Chain' (· < ·)
        (export_arena (⟨4, [""]⟩ : Interner String) (fun t => t.toList)).2 := by
  refine ⟨by decide, by decide, ?_⟩
  intro hchain
  have h01 : (0 : Nat) < 0 := by
    have heq : (export_arena (⟨4, [""]⟩ : Interner String)
        (fun t => t.toList)).2 = [0, 0] := by decide
    rw [heq] at hchain
    exact List.chain'_cons.mp hchain |>.1
  exact absurd h01 (by decide)

/-- C7 (amended): `export_arena` returns the concatenation of all stored
values in insertion order together with a non-decreasing prefix-sum offsets
table of length `len + 1` starting at 0 — `offsets[i]` is the total length
of the first `i` values, so `offsets[i+1] = offsets[i] + len(value i)`, and
consecutive offsets are equal exactly at empty values (strict increase only
holds when every value is nonempty); the slice of the buffer from
`offsets[h]` of the length of value `h` is value `h`; and interning
`"hello"` then `"world"` yields buffer `"helloworld"` with offsets
`[0, 5, 10]`. -/
theorem export_arena_spec :
    (∀ (T : Type) (s : Interner T) (f : T → List Char),
        (export_arena s f).1 = (s.items.map f).flatten
        ∧ (export_arena s f).2.length = s.items.length + 1
        ∧ (export_arena s f).2[0]? = some 0
        ∧ (∀ i, i ≤ s.items.length →
            (export_arena s f).2[i]? = some (sum_len f (s.items.take i)))
        ∧ (∀ i v, s.items[i]? = some v →
            (export_arena s f).2[i + 1]?
              = some (sum_len f (s.items.take i) + (f v).length))
        ∧ List.Chain' (· ≤ ·) (export_arena s f).2
        ∧ (∀ i v, s.items[i]? = some v →
            (((export_arena s f).1.drop (sum_len f (s.items.take i))).take
                (f v).length) = f v))
    ∧ export_arena (⟨256, ["hello", "world"]⟩ : Interner String)
        (fun t => t.toList)
      = ("helloworld".toList, [0, 5, 10]) := by
  constructor
  · intro T s f
    rw [export_arena_eq]
    have hoff : ∀ i, i ≤ s.items.length →
        (0 :: arena_offsets f 0 s.items)[i]?
          = some (sum_len f (s.items.take i)) := by
      intro i hi
      cases i with
      | zero => simp [sum_len]
      | succ i =>
        simp only [List.getElem?_cons_succ]
        rw [arena_offsets_getElem f 0 s.items i,
          if_pos (Nat.lt_of_succ_le hi)]
        simp
    refine ⟨rfl, ?_, ?_, hoff, ?_, ?_, ?_⟩
    · simp [arena_offsets_length]
    · simp
    · intro i v hv
      have hilt : i < s.items.length := by
        by_contra hge
        rw [List.getElem?_eq_none (Nat.le_of_not_lt hge)] at hv
        exact Option.noConfusion hv
      rw [hoff (i + 1) (Nat.succ_le_of_lt hilt)]
      have : s.items.take (i + 1) = s.items.take i ++ [v] := by
        rw [List.take_succ, hv]
        rfl
      rw [this, sum_len_append]
      simp [sum_len]
    · exact arena_offsets_chain f 0 s.items
    · intro i v hv
      exact flatten_slice f s.items i v hv
  · decide

/-- Witness for C7: in the store `["ab"]`, the offset after slot 0 is the
offset before it plus the length of `"ab"`, as the prefix-sum conjunct
states at `i = 0`. -/
theorem export_arena_spec_witness :
    (export_arena (⟨4, ["ab"]⟩ : Interner String) (fun t => t.toList)).2[0 + 1]?
      = some (sum_len (fun t => t.toList)
          ((⟨4, ["ab"]⟩ : Interner String).items.take 0)
          + ("ab".toList).length) :=
  ((export_arena_spec.1 String ⟨4, ["ab"]⟩ (fun t => t.toList)).2.2.2.2.1)
    0 "ab" (by decide)

end XgxIntern
